import Mathlib

/-!
# Verification of the TTS chunking and job client (`src/tts.rs`)

Shallow embedding of the Rust module `src/tts.rs` of `urub_do_pix`.

Strings are modelled as `List Char`; Rust's `str::len` (the UTF-8 byte
count) is modelled by `utf8Len` below, so that the `> 200` length checks
of the source are reproduced byte-for-byte.  Fallible Rust code
(`Result`) is modelled with `Except`; the network layer is out of scope
and enters only as explicit parameters (the decoded poll responses, the
per-chunk render function).
-/

/-- Rust `str::len`: the UTF-8 byte length of a string, here a `List Char`. -/
def utf8Len (s : List Char) : Nat :=
  (s.map Char.utf8Size).sum

/-- The text a piece of `split_str_and_include_separator` contributes to the
original string: the piece's own characters followed by its separator, when it
has one.  (`write!(buffer, "\x7b\x7d\x7b\x7d", piece, separator)` appends
exactly this.) -/
def pieceText : Option Char × List Char → List Char
  | (none, piece) => piece
  | (some sep, piece) => piece ++ [sep]

/-- Loop body of `split_str_and_include_separator` (`tts.rs` lines 134-146):
walk the characters, close a piece at `.` or `,` keeping the separator, and
emit a trailing separator-less piece when the final buffer is non-empty. -/
def splitGo (buffer : List Char) : List Char → List (Option Char × List Char)
  | [] => if buffer = [] then [] else [(none, buffer)]
  | c :: rest =>
    if c = '.' then (some '.', buffer) :: splitGo [] rest
    else if c = ',' then (some ',', buffer) :: splitGo [] rest
    else splitGo (buffer ++ [c]) rest

/-- `split_str_and_include_separator` (`tts.rs` lines 129-149). -/
def split_str_and_include_separator (text : List Char) :
    List (Option Char × List Char) :=
  splitGo [] text

/-- Rust `write!(&mut buffer, "\x7b\x7d\x7b\x7d", piece, separator)`
(`tts.rs` line 168): `fmt::Write` for `String` never fails, so the result is
always `ok` of the buffer extended with the piece and its separator. -/
def writeStr (buffer piece : List Char) (separator : Char) :
    Except Unit (List Char) :=
  Except.ok (buffer ++ piece ++ [separator])

/-- One append of the `divide_text_into_chunks` loop (`tts.rs` lines
165-170): `buffer.push_str(piece)` when the piece has no separator,
`write!(...)?` otherwise. -/
def appendPiece (buffer : List Char) :
    Option Char × List Char → Except Unit (List Char)
  | (none, piece) => Except.ok (buffer ++ piece)
  | (some separator, piece) => writeStr buffer piece separator

/-- Loop of `divide_text_into_chunks` (`tts.rs` lines 160-175), with the
mutable `buffer` and `chunks` as explicit state.  `i == pieces.len() - 1`
is `rest = []` here.  The overflow flush (line 161) fires before the append;
the final flush (line 172) fires after it. -/
def divideGo (buffer : List Char) (chunks : List (List Char)) :
    List (Option Char × List Char) → Except Unit (List (List Char))
  | [] => Except.ok chunks
  | (separator, piece) :: rest =>
    let s1 :=
      if 200 < utf8Len buffer + utf8Len piece
      then (chunks ++ [buffer], ([] : List Char))
      else (chunks, buffer)
    match appendPiece s1.2 (separator, piece) with
    | Except.error e => Except.error e
    | Except.ok buffer2 =>
      let s2 :=
        if rest = [] ∧ buffer2 ≠ []
        then (s1.1 ++ [buffer2], ([] : List Char))
        else (s1.1, buffer2)
      divideGo s2.2 s2.1 rest

/-- `divide_text_into_chunks` (`tts.rs` lines 153-178). -/
def divide_text_into_chunks (text : List Char) :
    Except Unit (List (List Char)) :=
  divideGo [] [] (split_str_and_include_separator text)

/-- Pure twin of `divideGo`: the `write!` in the loop can never fail, so the
loop is equivalent to this `Except`-free recursion (`divideGo_eq_pure`). -/
def divideGoPure (buffer : List Char) (chunks : List (List Char)) :
    List (Option Char × List Char) → List (List Char)
  | [] => chunks
  | (separator, piece) :: rest =>
    let s1 :=
      if 200 < utf8Len buffer + utf8Len piece
      then (chunks ++ [buffer], ([] : List Char))
      else (chunks, buffer)
    let buffer2 := s1.2 ++ pieceText (separator, piece)
    let s2 :=
      if rest = [] ∧ buffer2 ≠ []
      then (s1.1 ++ [buffer2], ([] : List Char))
      else (s1.1, buffer2)
    divideGoPure s2.2 s2.1 rest

/-- A chunk seen as the text of a consecutive group of pieces: used to state
that every chunk is a concatenation of whole segments (claim C5). -/
def chunkOfGroup (g : List (Option Char × List Char)) : List Char :=
  (g.map pieceText).flatten

/-- Grouping twin of `divideGoPure`: the same loop, but the buffer and the
chunks keep the pieces they are made of instead of their concatenated text.
`divideGoG_spec` proves it simulates `divideGoPure` through `chunkOfGroup`. -/
def divideGoG (gbuffer : List (Option Char × List Char))
    (gchunks : List (List (Option Char × List Char))) :
    List (Option Char × List Char) → List (List (Option Char × List Char))
  | [] => gchunks
  | (separator, piece) :: rest =>
    let s1 :=
      if 200 < utf8Len (chunkOfGroup gbuffer) + utf8Len piece
      then (gchunks ++ [gbuffer], ([] : List (Option Char × List Char)))
      else (gchunks, gbuffer)
    let gbuffer2 := s1.2 ++ [(separator, piece)]
    let s2 :=
      if rest = [] ∧ chunkOfGroup gbuffer2 ≠ []
      then (s1.1 ++ [gbuffer2], ([] : List (Option Char × List Char)))
      else (s1.1, gbuffer2)
    divideGoG s2.2 s2.1 rest

/-- The length invariant of claim C1 as the code satisfies it: a chunk is at
most 201 bytes long, or it is a single original piece of the split (with its
separator) whose own text exceeds the 200-byte limit. -/
def chunkOk (allPieces : List (Option Char × List Char)) (c : List Char) : Prop :=
  utf8Len c ≤ 201 ∨ ∃ p ∈ allPieces, 200 < utf8Len p.2 ∧ c = pieceText p

/-- Rust `Iterator::collect::<Result<Vec<_>, _>>()` (`tts.rs` line 125):
the first error, or the list of all successes in order. -/
def collectResults {ε α : Type} : List (Except ε α) → Except ε (List α)
  | [] => Except.ok []
  | Except.error e :: _ => Except.error e
  | Except.ok a :: rest => (collectResults rest).map (fun l => a :: l)

/-- The two error sources of `create_audio`: the `?` on
`divide_text_into_chunks` (line 118) and a failed per-chunk render. -/
inductive CreateAudioError (ε : Type) where
  | chunking (e : Unit)
  | render (e : ε)

/-- `create_audio` (`tts.rs` lines 117-126).  The per-chunk render operation
(`generate_audio`, network I/O) enters as the parameter `render`;
`futures::future::join_all` resolves the futures to a list in input order
(its documented contract, independent of completion order), modelled by
`List.map`, and `collect` is `collectResults`. -/
def create_audio {ε : Type} (render : List Char → Except ε String)
    (text : List Char) : Except (CreateAudioError ε) (List String) :=
  match divide_text_into_chunks text with
  | Except.error e => Except.error (CreateAudioError.chunking e)
  | Except.ok chunks =>
    match collectResults (chunks.map render) with
    | Except.error e => Except.error (CreateAudioError.render e)
    | Except.ok locations => Except.ok locations

/-- Wire struct `CreateSoundRequestData` (`tts.rs` lines 15-19). -/
structure CreateSoundRequestData where
  text : String
  voice : String
deriving DecidableEq

/-- Wire struct `CreateSoundRequest` (`tts.rs` lines 9-13). -/
structure CreateSoundRequest where
  data : CreateSoundRequestData
  engine : String
deriving DecidableEq

/-- Wire struct `GetSoundLocationResponse` (`tts.rs` lines 26-30). -/
structure GetSoundLocationResponse where
  status : String
  location : Option String
deriving DecidableEq

/-- The request body built by `generate_audio` (`tts.rs` lines 45-51):
engine `google`, voice `pt-BR`. -/
def mkCreateSoundRequest (text : String) : CreateSoundRequest :=
  { engine := "google", data := { text := text, voice := "pt-BR" } }

/-- How one pass of the poll loop of `generate_audio` ends. -/
inductive PollOutcome where
  | ok (location : String)
  | panicked
  | protocolError (requestBody : CreateSoundRequest) (responseBody : String)
      (decodeError : String)
deriving DecidableEq

/-- Whether a poll outcome is the protocol error of `tts.rs` lines 89-96. -/
def PollOutcome.isProtocolError : PollOutcome → Bool
  | PollOutcome.protocolError _ _ _ => true
  | _ => false

/-- Result of one iteration of the poll loop: finished with an outcome, or
sleep 200ms and poll again. -/
inductive PollStep where
  | finished (outcome : PollOutcome)
  | pending
deriving DecidableEq

/-- Body of one iteration of the poll loop of `generate_audio` (`tts.rs`
lines 87-108).  JSON decoding is an external collaborator, so the iteration
receives the raw response body together with its decode result.  A decode
failure returns the error built at lines 89-94, which carries the request
body, the raw response body and the decode error.  A non-`Pending` status
returns `data.location.unwrap()` (line 102): `PollOutcome.ok` when the
location is present, a panic when it is `None`. -/
def pollStep (body : CreateSoundRequest) (responseBodyText : String)
    (decoded : Except String GetSoundLocationResponse) : PollStep :=
  match decoded with
  | Except.error err =>
    PollStep.finished (PollOutcome.protocolError body responseBodyText err)
  | Except.ok data =>
    if data.status ≠ "Pending" then
      match data.location with
      | some location => PollStep.finished (PollOutcome.ok location)
      | none => PollStep.finished PollOutcome.panicked
    else
      PollStep.pending

/-- The poll loop of `generate_audio` (`tts.rs` lines 70-109), run over the
stream of poll responses the service will give; `none` means the stream was
exhausted while still `Pending` (the loop itself is unbounded by design). -/
def pollLoop (body : CreateSoundRequest) :
    List (String × Except String GetSoundLocationResponse) → Option PollOutcome
  | [] => none
  | (raw, decoded) :: rest =>
    match pollStep body raw decoded with
    | PollStep.finished outcome => some outcome
    | PollStep.pending => pollLoop body rest

/-- `generate_audio` (`tts.rs` lines 44-110) after a successful submission:
builds the request body from the text and runs the poll loop over the given
poll responses.  The submission itself is network I/O outside the model. -/
def generate_audio (text : String)
    (polls : List (String × Except String GetSoundLocationResponse)) :
    Option PollOutcome :=
  pollLoop (mkCreateSoundRequest text) polls

/-- Concrete input: 100 `a`s, a period, 99 `b`s, a period.  Its two
sentences are 101 and 100 bytes long — each under 200, summing to 201. -/
def twoSentences201 : List Char :=
  List.replicate 100 'a' ++ ['.'] ++ List.replicate 99 'b' ++ ['.']

/-- Concrete input whose first segment alone is 201 bytes long. -/
def oversizedFirstSegment : List Char :=
  List.replicate 201 'a' ++ ['.']

set_option maxRecDepth 40000

theorem appendPiece_eq (buffer : List Char) (p : Option Char × List Char) :
    appendPiece buffer p = Except.ok (buffer ++ pieceText p) := by
  rcases p with ⟨sep, piece⟩
  cases sep <;> simp [appendPiece, writeStr, pieceText]

theorem divideGo_eq_pure (pieces : List (Option Char × List Char)) :
    ∀ buffer chunks,
      divideGo buffer chunks pieces = Except.ok (divideGoPure buffer chunks pieces) := by
  induction pieces with
  | nil => intro buffer chunks; rfl
  | cons p rest ih =>
    intro buffer chunks
    rcases p with ⟨sep, piece⟩
    simp only [divideGo, divideGoPure, appendPiece_eq]
    apply ih

theorem utf8Len_append (a b : List Char) :
    utf8Len (a ++ b) = utf8Len a + utf8Len b := by
  simp [utf8Len]

theorem utf8Len_nil : utf8Len [] = 0 := rfl

theorem splitGo_flatten (text : List Char) :
    ∀ buffer, ((splitGo buffer text).map pieceText).flatten = buffer ++ text := by
  induction text with
  | nil =>
    intro buffer
    by_cases h : buffer = [] <;> simp [splitGo, h, pieceText]
  | cons c rest ih =>
    intro buffer
    by_cases h1 : c = '.'
    · subst h1; simp [splitGo, pieceText, ih]
    · by_cases h2 : c = ','
      · subst h2; simp [splitGo, h1, pieceText, ih]
      · simp [splitGo, h1, h2, ih]

theorem divideGoPure_flatten :
    ∀ (pieces : List (Option Char × List Char)) (buffer : List Char)
      (chunks : List (List Char)), (pieces = [] → buffer = []) →
      (divideGoPure buffer chunks pieces).flatten =
        chunks.flatten ++ buffer ++ (pieces.map pieceText).flatten := by
  intro pieces
  induction pieces with
  | nil =>
    intro buffer chunks h
    simp [divideGoPure, h rfl]
  | cons p rest ih =>
    intro buffer chunks h
    rcases p with ⟨sep, piece⟩
    rcases rest with _ | ⟨q, rest2⟩
    · by_cases h1 : 200 < utf8Len buffer + utf8Len piece
      · by_cases h3 : pieceText (sep, piece) = []
        · simp [divideGoPure, h1, h3]
        · simp [divideGoPure, h1, h3]
      · by_cases h3 : buffer ++ pieceText (sep, piece) = []
        · rcases List.append_eq_nil.mp h3 with ⟨hb, hp⟩
          subst hb
          simp only [utf8Len_nil, Nat.zero_add] at h1
          simp [divideGoPure, h1, hp, utf8Len_nil]
        · simp [divideGoPure, h1, h3]
    · rw [divideGoPure]
      rw [ih _ _ (by simp)]
      by_cases h1 : 200 < utf8Len buffer + utf8Len piece
      · simp [h1]
      · simp [h1]

theorem utf8Len_singleton (c : Char) : utf8Len [c] = c.utf8Size := by
  simp [utf8Len]

theorem length_le_utf8Len (s : List Char) : s.length ≤ utf8Len s := by
  induction s with
  | nil => simp [utf8Len]
  | cons c cs ih =>
    have hc := Char.utf8Size_pos c
    simp only [List.length_cons, utf8Len, List.map_cons, List.sum_cons]
    simp only [utf8Len] at ih
    omega

theorem splitGo_sep_size (text : List Char) :
    ∀ buffer, ∀ p ∈ splitGo buffer text, ∀ c, p.1 = some c → Char.utf8Size c = 1 := by
  induction text with
  | nil =>
    intro buffer p hp c hc
    by_cases h : buffer = [] <;> simp [splitGo, h] at hp
    subst hp
    simp at hc
  | cons d rest ih =>
    intro buffer p hp c hc
    by_cases h1 : d = '.'
    · subst h1
      simp only [splitGo, if_pos, List.mem_cons] at hp
      rcases hp with hp | hp
      · subst hp; simp at hc; subst hc; decide
      · exact ih [] p hp c hc
    · by_cases h2 : d = ','
      · subst h2
        simp only [splitGo, h1, if_neg, if_pos, List.mem_cons, ite_false,
          ite_true, reduceIte] at hp
        rcases hp with hp | hp
        · subst hp; simp at hc; subst hc; decide
        · exact ih [] p hp c hc
      · simp only [splitGo, h1, h2, ite_false] at hp
        exact ih (buffer ++ [d]) p hp c hc

theorem splitGo_pieceText_ne_nil (text : List Char) :
    ∀ buffer, ∀ p ∈ splitGo buffer text, pieceText p ≠ [] := by
  induction text with
  | nil =>
    intro buffer p hp
    by_cases h : buffer = [] <;> simp [splitGo, h] at hp
    subst hp
    simp [pieceText, h]
  | cons d rest ih =>
    intro buffer p hp
    by_cases h1 : d = '.'
    · subst h1
      simp only [splitGo, if_pos, List.mem_cons] at hp
      rcases hp with hp | hp
      · subst hp; simp [pieceText]
      · exact ih [] p hp
    · by_cases h2 : d = ','
      · subst h2
        simp only [splitGo, h1, List.mem_cons, ite_false, ite_true,
          reduceIte] at hp
        rcases hp with hp | hp
        · subst hp; simp [pieceText]
        · exact ih [] p hp
      · simp only [splitGo, h1, h2, ite_false] at hp
        exact ih (buffer ++ [d]) p hp

theorem chunkOk_nil (allPieces : List (Option Char × List Char)) :
    chunkOk allPieces [] := by
  left; simp [utf8Len]

theorem utf8Len_pieceText_le (sep : Option Char) (piece : List Char)
    (hsep : ∀ c, sep = some c → Char.utf8Size c = 1) :
    utf8Len (pieceText (sep, piece)) ≤ utf8Len piece + 1 := by
  cases sep with
  | none => simp [pieceText]
  | some c =>
    have h1 : c.utf8Size = 1 := hsep c rfl
    simp [pieceText, utf8Len_append, utf8Len_singleton, h1]

/-- Invariant of the chunking loop behind claim C1: every chunk the loop
emits is either at most 201 bytes long, or the text of a single oversized
piece. -/
theorem divideGoPure_chunkOk (allPieces : List (Option Char × List Char))
    (hsep : ∀ p ∈ allPieces, ∀ c, p.1 = some c → Char.utf8Size c = 1) :
    ∀ (pieces : List (Option Char × List Char)), (∀ p ∈ pieces, p ∈ allPieces) →
      ∀ (buffer : List Char) (chunks : List (List Char)),
        chunkOk allPieces buffer →
        (∀ c ∈ chunks, chunkOk allPieces c) →
        ∀ c ∈ divideGoPure buffer chunks pieces, chunkOk allPieces c := by
  intro pieces
  induction pieces with
  | nil =>
    intro _ buffer chunks _ hchunks c hc
    simp only [divideGoPure] at hc
    exact hchunks c hc
  | cons p rest ih =>
    intro hmem buffer chunks hbuf hchunks
    rcases p with ⟨sep, piece⟩
    have hhead : (sep, piece) ∈ allPieces := hmem _ (List.mem_cons_self _ _)
    have hsep1 : ∀ c, sep = some c → Char.utf8Size c = 1 := fun c hc =>
      hsep (sep, piece) hhead c hc
    have hrest : ∀ q ∈ rest, q ∈ allPieces := fun q hq =>
      hmem q (List.mem_cons_of_mem _ hq)
    simp only [divideGoPure]
    split_ifs with h1 h2 <;> dsimp only
    · -- overflow flush, then final flush
      refine ih hrest _ _ (chunkOk_nil _) ?_
      intro c hc
      simp only [List.append_assoc, List.mem_append, List.mem_singleton] at hc
      rcases hc with hc | hc | hc
      · exact hchunks c hc
      · rw [hc]; exact hbuf
      · rw [hc]
        by_cases hbig : 200 < utf8Len piece
        · right; exact ⟨(sep, piece), hhead, hbig, by simp⟩
        · left
          have := utf8Len_pieceText_le sep piece hsep1
          simp only [List.nil_append]
          omega
    · -- overflow flush only
      refine ih hrest _ _ ?_ ?_
      · by_cases hbig : 200 < utf8Len piece
        · right; exact ⟨(sep, piece), hhead, hbig, by simp⟩
        · left
          have := utf8Len_pieceText_le sep piece hsep1
          simp only [List.nil_append]
          omega
      · intro c hc
        simp only [List.mem_append, List.mem_singleton] at hc
        rcases hc with hc | hc
        · exact hchunks c hc
        · rw [hc]; exact hbuf
    · -- no overflow, final flush
      refine ih hrest _ _ (chunkOk_nil _) ?_
      intro c hc
      simp only [List.mem_append, List.mem_singleton] at hc
      rcases hc with hc | hc
      · exact hchunks c hc
      · rw [hc]; left
        have := utf8Len_pieceText_le sep piece hsep1
        rw [utf8Len_append]
        omega
    · -- no overflow, no flush
      refine ih hrest _ _ ?_ hchunks
      left
      have := utf8Len_pieceText_le sep piece hsep1
      rw [utf8Len_append]
      omega

/-- C1 (amended): every chunk produced by `divide_text_into_chunks` either
has length at most 201 — both in bytes (`utf8Len`, what the code compares
against 200) and in characters — or is the text of one original segment that
is itself longer than the 200-byte limit.  The stated bound of 200 fails
because the pre-append length check (`tts.rs` line 161) does not count the
one-byte separator appended together with the piece. -/
theorem chunk_length_bound (text : List Char) (chunks : List (List Char))
    (c : List Char)
    (h : divide_text_into_chunks text = Except.ok chunks) (hc : c ∈ chunks) :
    (utf8Len c ≤ 201 ∧ c.length ≤ 201) ∨
      ∃ p ∈ split_str_and_include_separator text,
        200 < utf8Len p.2 ∧ c = pieceText p := by
  rw [divide_text_into_chunks, divideGo_eq_pure] at h
  have hchunks : chunks = divideGoPure [] [] (split_str_and_include_separator text) := by
    injection h with h2
    exact h2.symm
  subst hchunks
  have hok := divideGoPure_chunkOk (split_str_and_include_separator text)
    (splitGo_sep_size text []) (split_str_and_include_separator text)
    (fun p hp => hp) [] [] (chunkOk_nil _) (by intro c hc; simp at hc) c hc
  rcases hok with hok | hok
  · exact Or.inl ⟨hok, le_trans (length_le_utf8Len c) hok⟩
  · exact Or.inr hok

theorem chunkOfGroup_nil : chunkOfGroup [] = [] := rfl

theorem chunkOfGroup_append (g1 g2 : List (Option Char × List Char)) :
    chunkOfGroup (g1 ++ g2) = chunkOfGroup g1 ++ chunkOfGroup g2 := by
  simp [chunkOfGroup]

theorem chunkOfGroup_singleton (p : Option Char × List Char) :
    chunkOfGroup [p] = pieceText p := by
  simp [chunkOfGroup]

/-- The grouping loop simulates the chunking loop: running `divideGoPure` on
the texts of the grouped state gives the texts of the grouped result. -/
theorem divideGoG_spec :
    ∀ (pieces gbuffer : List (Option Char × List Char))
      (gchunks : List (List (Option Char × List Char)))
      (buffer : List Char) (chunks : List (List Char)),
      buffer = chunkOfGroup gbuffer → chunks = gchunks.map chunkOfGroup →
      divideGoPure buffer chunks pieces =
        (divideGoG gbuffer gchunks pieces).map chunkOfGroup := by
  intro pieces
  induction pieces with
  | nil =>
    intro gbuffer gchunks buffer chunks hb hc
    simp only [divideGoPure, divideGoG]
    exact hc
  | cons p rest ih =>
    intro gbuffer gchunks buffer chunks hb hc
    rcases p with ⟨sep, piece⟩
    subst hb hc
    by_cases h1 : 200 < utf8Len (chunkOfGroup gbuffer) + utf8Len piece
    · simp only [divideGoPure, divideGoG, h1, if_true, List.nil_append,
        chunkOfGroup_append, chunkOfGroup_singleton, chunkOfGroup_nil]
      by_cases h2 : rest = [] ∧ ¬pieceText (sep, piece) = []
      · obtain ⟨hrest, hpt⟩ := h2
        subst hrest
        simp [divideGoPure, divideGoG, chunkOfGroup, hpt]
      · simp only [ne_eq, h2, if_false]
        apply ih <;> simp [chunkOfGroup]
    · simp only [divideGoPure, divideGoG, h1, if_false, List.nil_append,
        chunkOfGroup_append, chunkOfGroup_singleton, chunkOfGroup_nil]
      by_cases h2 : rest = [] ∧ ¬(chunkOfGroup gbuffer ++ pieceText (sep, piece)) = []
      · obtain ⟨hrest, hpt⟩ := h2
        subst hrest
        simp [divideGoPure, divideGoG, chunkOfGroup_append,
          chunkOfGroup_singleton, chunkOfGroup_nil, hpt]
      · simp only [ne_eq, chunkOfGroup_append, chunkOfGroup_singleton, h2,
          if_false]
        apply ih <;> simp [chunkOfGroup]

/-- Flattening the grouped result recovers all pieces in order, provided no
piece has empty text (true for the pieces of
`split_str_and_include_separator`). -/
theorem divideGoG_flatten :
    ∀ (pieces gbuffer : List (Option Char × List Char))
      (gchunks : List (List (Option Char × List Char))),
      (∀ p ∈ pieces, pieceText p ≠ []) → (pieces = [] → gbuffer = []) →
      (divideGoG gbuffer gchunks pieces).flatten =
        gchunks.flatten ++ gbuffer ++ pieces := by
  intro pieces
  induction pieces with
  | nil =>
    intro gbuffer gchunks _ h
    simp [divideGoG, h rfl]
  | cons p rest ih =>
    intro gbuffer gchunks hne h
    rcases p with ⟨sep, piece⟩
    have hpt : pieceText (sep, piece) ≠ [] :=
      hne _ (List.mem_cons_self _ _)
    have hrest : ∀ q ∈ rest, pieceText q ≠ [] := fun q hq =>
      hne q (List.mem_cons_of_mem _ hq)
    rcases rest with _ | ⟨q, rest2⟩
    · by_cases h1 : 200 < utf8Len (chunkOfGroup gbuffer) + utf8Len piece
      · simp [divideGoG, h1, chunkOfGroup_append, chunkOfGroup_singleton,
          hpt]
      · by_cases h3 : chunkOfGroup gbuffer ++ pieceText (sep, piece) = []
        · exact absurd (List.append_eq_nil.mp h3).2 hpt
        · simp [divideGoG, h1, chunkOfGroup_append, chunkOfGroup_singleton,
            h3]
    · rw [divideGoG]
      rw [ih _ _ hrest (by simp)]
      by_cases h1 : 200 < utf8Len (chunkOfGroup gbuffer) + utf8Len piece
      · simp [h1]
      · simp [h1]

/-- C5: no chunk ends mid-segment: the chunk list is the image of a
partition of the segment list into consecutive groups, each chunk being the
concatenation of the whole segments (text plus separator) of its group — in
particular an oversized segment is kept whole, and every chunk boundary
falls at a `.`/`,` segment end or at the end of the text. -/
theorem chunk_boundary (text : List Char) :
    ∃ (chunks : List (List Char))
      (groups : List (List (Option Char × List Char))),
      divide_text_into_chunks text = Except.ok chunks ∧
      chunks = groups.map chunkOfGroup ∧
      groups.flatten = split_str_and_include_separator text := by
  refine ⟨divideGoPure [] [] (split_str_and_include_separator text),
    divideGoG [] [] (split_str_and_include_separator text),
    divideGo_eq_pure _ _ _, ?_, ?_⟩
  · exact divideGoG_spec _ _ _ _ _ rfl rfl
  · rw [divideGoG_flatten (split_str_and_include_separator text) [] []
      (fun p hp => splitGo_pieceText_ne_nil text [] p hp) (fun _ => rfl)]
    simp

/-- The chunk accumulator of the loop only ever grows at the back: a chunk
already emitted stays, in place, in the final result. -/
theorem divideGoPure_cons_acc :
    ∀ (pieces : List (Option Char × List Char)) (buffer c0 : List Char)
      (chunks : List (List Char)),
      divideGoPure buffer (c0 :: chunks) pieces =
        c0 :: divideGoPure buffer chunks pieces := by
  intro pieces
  induction pieces with
  | nil =>
    intro buffer c0 chunks
    simp [divideGoPure]
  | cons p rest ih =>
    intro buffer c0 chunks
    rcases p with ⟨sep, piece⟩
    simp only [divideGoPure]
    split_ifs with h1 h2 <;> dsimp only <;> simp [ih]

/-- C9: `divide_text_into_chunks` fails only through the `?` on `write!`
(`tts.rs` line 168), and `fmt::Write` for `String` never fails, so the
error branch is unreachable: the function returns `Ok` on every input. -/
theorem divide_text_into_chunks_total (text : List Char) :
    ∃ chunks, divide_text_into_chunks text = Except.ok chunks := by
  exact ⟨_, divideGo_eq_pure _ _ _⟩

/-- C10: when the first segment of the input alone exceeds the 200-byte
limit, the overflow flush (`tts.rs` lines 161-163) fires while the buffer is
still empty, so the first chunk is the empty string; `create_audio` then
submits a render job with empty text for it, and a render failure on that
empty chunk fails the whole call. -/
theorem empty_chunk_on_oversized_first_segment (text : List Char)
    (sep : Option Char) (piece : List Char)
    (rest : List (Option Char × List Char))
    (hsplit : split_str_and_include_separator text = (sep, piece) :: rest)
    (hbig : 200 < utf8Len piece) :
    ∃ chunkTail, divide_text_into_chunks text = Except.ok ([] :: chunkTail) ∧
      ∀ (ε : Type) (render : List Char → Except ε String) (e : ε),
        render [] = Except.error e →
        create_audio render text = Except.error (CreateAudioError.render e) := by
  have hdiv : divide_text_into_chunks text =
      Except.ok (divideGoPure [] [] ((sep, piece) :: rest)) := by
    rw [divide_text_into_chunks, hsplit, divideGo_eq_pure]
  have hshape : ∃ tail, divideGoPure [] [] ((sep, piece) :: rest) = [] :: tail := by
    simp only [divideGoPure, utf8Len_nil, Nat.zero_add, hbig, if_true,
      List.nil_append]
    by_cases h2 : rest = [] ∧ ¬pieceText (sep, piece) = []
    · obtain ⟨hrest, hpt⟩ := h2
      subst hrest
      exact ⟨[pieceText (sep, piece)], by simp [divideGoPure, hpt]⟩
    · simp only [ne_eq, h2, if_false]
      exact ⟨_, by rw [divideGoPure_cons_acc]⟩
  obtain ⟨tail, htail⟩ := hshape
  have hdiv2 : divide_text_into_chunks text = Except.ok ([] :: tail) := by
    rw [hdiv, htail]
  refine ⟨tail, hdiv2, ?_⟩
  intro ε render e hrender
  simp [create_audio, hdiv2, collectResults, hrender]

theorem collectResults_ok {ε α : Type} :
    ∀ (l : List (Except ε α)) (r : List α),
      collectResults l = Except.ok r → l = r.map Except.ok := by
  intro l
  induction l with
  | nil =>
    intro r h
    simp only [collectResults, Except.ok.injEq] at h
    subst h
    rfl
  | cons x rest ih =>
    intro r h
    cases x with
    | error e => simp [collectResults] at h
    | ok a =>
      simp only [collectResults] at h
      cases hr : collectResults rest with
      | error e => rw [hr] at h; simp [Except.map] at h
      | ok r2 =>
        rw [hr] at h
        simp only [Except.map, Except.ok.injEq] at h
        subst h
        simp [ih r2 hr]

theorem collectResults_error {ε α : Type} :
    ∀ (l : List (Except ε α)) (x : Except ε α) (e : ε),
      x ∈ l → x = Except.error e → ∃ e2, collectResults l = Except.error e2 := by
  intro l
  induction l with
  | nil =>
    intro x e hx _
    simp at hx
  | cons y rest ih =>
    intro x e hx hxe
    rcases List.mem_cons.mp hx with h | h
    · rw [← h, hxe]
      exact ⟨e, rfl⟩
    · cases y with
      | error e3 => exact ⟨e3, rfl⟩
      | ok a =>
        obtain ⟨e2, he2⟩ := ih x e h hxe
        exact ⟨e2, by simp [collectResults, he2, Except.map]⟩

/-- C6: on success, `create_audio` returns one location per chunk, in chunk
order: position `i` of the result is the location rendered for chunk `i`.
(`futures::future::join_all` keeps the positional association between task
and chunk index regardless of completion order, which is why the render
effects are representable as a per-chunk function here.) -/
theorem create_audio_order {ε : Type} (render : List Char → Except ε String)
    (text : List Char) (chunks : List (List Char)) (locations : List String)
    (i : Nat)
    (hchunks : divide_text_into_chunks text = Except.ok chunks)
    (hok : create_audio render text = Except.ok locations)
    (hi : i < chunks.length) (hl : i < locations.length) :
    locations.length = chunks.length ∧
      render chunks[i] = Except.ok locations[i] := by
  simp only [create_audio, hchunks] at hok
  cases hcoll : collectResults (List.map render chunks) with
  | error e => rw [hcoll] at hok; simp at hok
  | ok locs =>
    rw [hcoll] at hok
    simp only [Except.ok.injEq] at hok
    subst hok
    have hmap := collectResults_ok _ _ hcoll
    constructor
    · have := congrArg List.length hmap
      simp only [List.length_map] at this
      omega
    · have h3 : (List.map render chunks)[i]? = (List.map Except.ok locs)[i]? := by
        rw [hmap]
      rw [List.getElem?_map, List.getElem?_map,
        List.getElem?_eq_getElem hi, List.getElem?_eq_getElem hl] at h3
      simpa using h3

/-- C7: all-or-nothing aggregation in `create_audio`: a failing chunk render
fails the whole call (no partial location list), and a successful call means
every chunk's render succeeded. -/
theorem create_audio_all_or_nothing {ε : Type}
    (render : List Char → Except ε String)
    (text : List Char) (chunks : List (List Char))
    (hchunks : divide_text_into_chunks text = Except.ok chunks) :
    (∀ c ∈ chunks, ∀ e, render c = Except.error e →
        ∃ e2, create_audio render text =
          Except.error (CreateAudioError.render e2)) ∧
      (∀ locations, create_audio render text = Except.ok locations →
        ∀ c ∈ chunks, ∃ location, render c = Except.ok location) := by
  constructor
  · intro c hc e he
    have hmem : render c ∈ List.map render chunks :=
      List.mem_map_of_mem render hc
    obtain ⟨e2, he2⟩ := collectResults_error _ _ e hmem he
    exact ⟨e2, by simp [create_audio, hchunks, he2]⟩
  · intro locations hok c hc
    simp only [create_audio, hchunks] at hok
    cases hcoll : collectResults (List.map render chunks) with
    | error e => rw [hcoll] at hok; simp at hok
    | ok locs =>
      rw [hcoll] at hok
      simp only [Except.ok.injEq] at hok
      subst hok
      have hmap := collectResults_ok _ _ hcoll
      have hmem : render c ∈ List.map Except.ok locs :=
        hmap ▸ List.mem_map_of_mem render hc
      obtain ⟨loc, _, hloc⟩ := List.mem_map.mp hmem
      exact ⟨loc, hloc.symm⟩

/-- C3 (amended): when a poll response decodes successfully with a status
other than `"Pending"` but no location, `generate_audio` does fail loudly —
but by panicking (`data.location.unwrap()` on `None`, `tts.rs` line 102),
not by returning a `ProtocolError`. -/
theorem poll_missing_location_panics (text raw : String)
    (resp : GetSoundLocationResponse)
    (polls : List (String × Except String GetSoundLocationResponse))
    (hstatus : resp.status ≠ "Pending") (hloc : resp.location = none) :
    generate_audio text ((raw, Except.ok resp) :: polls) =
      some PollOutcome.panicked := by
  simp [generate_audio, pollLoop, pollStep, hstatus, hloc]

/-- C8: whenever decoding a poll status response fails, the poll loop of
`generate_audio` terminates at once with the protocol error built at
`tts.rs` lines 89-94, which carries the original submission payload, the
raw response body and the decode error. -/
theorem poll_decode_failure (text raw err : String)
    (history rest : List (String × Except String GetSoundLocationResponse))
    (hpending : ∀ pr ∈ history,
      ∃ resp, pr.2 = Except.ok resp ∧ resp.status = "Pending") :
    generate_audio text (history ++ (raw, Except.error err) :: rest) =
      some (PollOutcome.protocolError (mkCreateSoundRequest text) raw err) := by
  revert hpending
  induction history with
  | nil =>
    intro _
    simp [generate_audio, pollLoop, pollStep]
  | cons pr history2 ih =>
    intro hpending
    obtain ⟨resp, hok, hst⟩ := hpending pr (List.mem_cons_self _ _)
    rcases pr with ⟨praw, pdec⟩
    simp only at hok
    subst hok
    simp only [generate_audio, List.cons_append, pollLoop, pollStep, hst,
      ne_eq, not_true, if_false, ite_false, reduceIte]
    exact ih fun q hq => hpending q (List.mem_cons_of_mem _ hq)

theorem splitGo_no_sep (p : List Char)
    (hp : ∀ c ∈ p, c ≠ '.' ∧ c ≠ ',') :
    ∀ (buffer rest : List Char),
      splitGo buffer (p ++ '.' :: rest) =
        (some '.', buffer ++ p) :: splitGo [] rest := by
  induction p with
  | nil =>
    intro buffer rest
    simp [splitGo]
  | cons c p2 ih =>
    intro buffer rest
    obtain ⟨hc1, hc2⟩ := hp c (List.mem_cons_self _ _)
    have hp2 : ∀ d ∈ p2, d ≠ '.' ∧ d ≠ ',' := fun d hd =>
      hp d (List.mem_cons_of_mem _ hd)
    rw [List.cons_append, splitGo]
    simp only [hc1, hc2, if_false, ite_false, reduceIte]
    rw [ih hp2]
    simp

/-- C4 (amended): an input of two `.`-terminated sentences, each under 200
bytes, is split into exactly the two sentences whenever their lengths sum
to at least 202.  (The stated threshold — summing to more than 200 — fails
at 201: the check at `tts.rs` line 161 compares against the incoming piece
without its separator, see the counterexample.) -/
theorem two_sentence_split (p1 p2 : List Char)
    (hp1 : ∀ c ∈ p1, c ≠ '.' ∧ c ≠ ',')
    (hp2 : ∀ c ∈ p2, c ≠ '.' ∧ c ≠ ',')
    (hl1 : utf8Len (p1 ++ ['.']) < 200)
    (hl2 : utf8Len (p2 ++ ['.']) < 200)
    (hsum : 201 < utf8Len (p1 ++ ['.']) + utf8Len (p2 ++ ['.'])) :
    divide_text_into_chunks (p1 ++ ['.'] ++ (p2 ++ ['.'])) =
      Except.ok [p1 ++ ['.'], p2 ++ ['.']] := by
  have hdot : Char.utf8Size '.' = 1 := by decide
  have e1 : utf8Len (p1 ++ ['.']) = utf8Len p1 + 1 := by
    rw [utf8Len_append, utf8Len_singleton, hdot]
  have e2 : utf8Len (p2 ++ ['.']) = utf8Len p2 + 1 := by
    rw [utf8Len_append, utf8Len_singleton, hdot]
  have htext : p1 ++ ['.'] ++ (p2 ++ ['.']) = p1 ++ '.' :: (p2 ++ '.' :: []) := by
    simp
  have hsplit : split_str_and_include_separator (p1 ++ ['.'] ++ (p2 ++ ['.'])) =
      [(some '.', p1), (some '.', p2)] := by
    rw [split_str_and_include_separator, htext, splitGo_no_sep p1 hp1,
      splitGo_no_sep p2 hp2]
    simp [splitGo]
  rw [divide_text_into_chunks, hsplit, divideGo_eq_pure]
  have c1 : ¬200 < utf8Len ([] : List Char) + utf8Len p1 := by
    rw [utf8Len_nil]
    omega
  have c2 : 200 < utf8Len (p1 ++ ['.']) + utf8Len p2 := by
    rw [e1, e2] at hsum
    rw [e1]
    omega
  simp [divideGoPure, pieceText, c1, c2]

/-- C2: concatenating, in order, the chunks produced by
`divide_text_into_chunks` yields exactly the original text — no character
dropped, duplicated or reordered, punctuation preserved. -/
theorem chunk_roundtrip (text : List Char) :
    ∃ chunks, divide_text_into_chunks text = Except.ok chunks ∧
      chunks.flatten = text := by
  refine ⟨_, divideGo_eq_pure _ _ _, ?_⟩
  rw [divideGoPure_flatten _ _ _ (fun _ => rfl)]
  simp [split_str_and_include_separator, splitGo_flatten]

/-- C1 (counterexample): on 100 `a`s + `.` + 99 `b`s + `.` the two segments
are 100 and 99 bytes of text (101 and 100 with separators), both within the
200 limit, yet the single produced chunk is the whole 201-character text —
longer than the claimed 200 bound. -/
theorem chunk_length_counterexample :
    divide_text_into_chunks twoSentences201 = Except.ok [twoSentences201] ∧
    utf8Len twoSentences201 = 201 ∧
    twoSentences201.length = 201 ∧
    split_str_and_include_separator twoSentences201 =
      [(some '.', List.replicate 100 'a'), (some '.', List.replicate 99 'b')] ∧
    utf8Len (List.replicate 100 'a') = 100 ∧
    utf8Len (List.replicate 99 'b') = 99 :=
  ⟨rfl, rfl, rfl, rfl, rfl, rfl⟩

theorem chunk_length_bound_witness :
    (utf8Len twoSentences201 ≤ 201 ∧ twoSentences201.length ≤ 201) ∨
      ∃ p ∈ split_str_and_include_separator twoSentences201,
        200 < utf8Len p.2 ∧ twoSentences201 = pieceText p :=
  chunk_length_bound twoSentences201 [twoSentences201] twoSentences201 rfl
    (List.mem_singleton.mpr rfl)

/-- C4 (counterexample): two sentences of 101 and 100 bytes — each under
200, summing to 201, i.e. "more than 200" — produce ONE chunk, not two. -/
theorem two_sentence_split_counterexample :
    utf8Len (List.replicate 100 'a' ++ ['.']) = 101 ∧
    utf8Len (List.replicate 99 'b' ++ ['.']) = 100 ∧
    twoSentences201 =
      List.replicate 100 'a' ++ ['.'] ++ (List.replicate 99 'b' ++ ['.']) ∧
    divide_text_into_chunks twoSentences201 = Except.ok [twoSentences201] ∧
    ([twoSentences201] : List (List Char)).length = 1 :=
  ⟨rfl, rfl, by simp [twoSentences201], rfl, rfl⟩

theorem two_sentence_split_witness :
    divide_text_into_chunks
        (List.replicate 150 'a' ++ ['.'] ++ (List.replicate 100 'b' ++ ['.'])) =
      Except.ok [List.replicate 150 'a' ++ ['.'],
        List.replicate 100 'b' ++ ['.']] :=
  two_sentence_split (List.replicate 150 'a') (List.replicate 100 'b')
    (by decide) (by decide) (by decide) (by decide) (by decide)

/-- C3 (counterexample): on poll response `status = "Done"`, no location,
the render operation ends in a panic (the `unwrap` at `tts.rs` line 102),
not in a returned `ProtocolError`. -/
theorem poll_missing_location_counterexample :
    generate_audio "oi" [("raw-body", Except.ok ⟨"Done", none⟩)] =
      some PollOutcome.panicked ∧
    PollOutcome.isProtocolError PollOutcome.panicked = false :=
  ⟨rfl, rfl⟩

theorem poll_missing_location_panics_witness :
    generate_audio "abc" [("body-text", Except.ok ⟨"Ready", none⟩)] =
      some PollOutcome.panicked :=
  poll_missing_location_panics "abc" "body-text" ⟨"Ready", none⟩ []
    (by decide) rfl

theorem poll_decode_failure_witness :
    generate_audio "alo"
        ([("pending-body", Except.ok ⟨"Pending", none⟩)] ++
          ("bad-json", Except.error "expected value") :: []) =
      some (PollOutcome.protocolError (mkCreateSoundRequest "alo")
        "bad-json" "expected value") :=
  poll_decode_failure "alo" "bad-json" "expected value"
    [("pending-body", Except.ok ⟨"Pending", none⟩)] []
    (by
      intro pr hpr
      simp only [List.mem_singleton] at hpr
      subst hpr
      exact ⟨⟨"Pending", none⟩, rfl, rfl⟩)

theorem create_audio_order_witness :
    (["https://resolved"] : List String).length =
        ([String.data "ola."] : List (List Char)).length ∧
      (fun _ : List Char =>
          (Except.ok "https://resolved" : Except String String))
          (([String.data "ola."] : List (List Char))[0]) =
        Except.ok ((["https://resolved"] : List String)[0]) :=
  create_audio_order
    (fun _ : List Char => (Except.ok "https://resolved" : Except String String))
    (String.data "ola.") [String.data "ola."] ["https://resolved"] 0
    rfl rfl (by decide) (by decide)

theorem create_audio_all_or_nothing_witness :
    (∀ c ∈ [String.data "oi."], ∀ e,
        (fun _ : List Char => (Except.error "boom" : Except String String)) c =
          Except.error e →
        ∃ e2, create_audio
            (fun _ : List Char => (Except.error "boom" : Except String String))
            (String.data "oi.") =
          Except.error (CreateAudioError.render e2)) ∧
      (∀ locations, create_audio
          (fun _ : List Char => (Except.error "boom" : Except String String))
          (String.data "oi.") = Except.ok locations →
        ∀ c ∈ [String.data "oi."], ∃ location,
          (fun _ : List Char => (Except.error "boom" : Except String String)) c =
            Except.ok location) :=
  create_audio_all_or_nothing
    (fun _ : List Char => (Except.error "boom" : Except String String))
    (String.data "oi.") [String.data "oi."] rfl

theorem empty_chunk_witness :
    ∃ chunkTail,
      divide_text_into_chunks oversizedFirstSegment =
        Except.ok ([] :: chunkTail) ∧
      ∀ (ε : Type) (render : List Char → Except ε String) (e : ε),
        render [] = Except.error e →
        create_audio render oversizedFirstSegment =
          Except.error (CreateAudioError.render e) :=
  empty_chunk_on_oversized_first_segment oversizedFirstSegment (some '.')
    (List.replicate 201 'a') [] rfl (by decide)
